import Mathlib

/-!
Shallow embedding of the version classification, closest-match resolution and
route-set dispatch core of the fastapi_version_handler repository
(src/fastapi_version_handler/utils.py, routers.py, handlers.py).

Strings are modelled as Lean `String` (a list of characters); Python's string
comparison operators compare lexicographically by code point, which is exactly
the boolean comparison `clLt` below on the underlying character lists.
Routes are opaque descriptors, modelled as `Nat`.
-/

/-- Lexicographic comparison of character lists by code point.  This is the
order Python's `<` uses on `str` values (restricted to the code points that
occur in version and date tokens). -/
def clLt : List Char → List Char → Bool
  | [], [] => false
  | [], _ :: _ => true
  | _ :: _, [] => false
  | a :: as, b :: bs =>
    if a.toNat < b.toNat then true
    else if b.toNat < a.toNat then false
    else clLt as bs

/-- Python's `s < t` on strings. -/
def pyLt (s t : String) : Bool := clLt s.data t.data

/-- Python's `s <= t` on strings (total order: `s <= t` iff not `t < s`). -/
def pyLe (s t : String) : Bool := !pyLt t s

theorem clLt_irrefl : ∀ l : List Char, clLt l l = false := by
  intro l
  induction l with
  | nil => rfl
  | cons a as ih =>
    simp only [clLt]
    rw [if_neg (Nat.lt_irrefl _), if_neg (Nat.lt_irrefl _)]
    exact ih

theorem clLt_asymm : ∀ {a b : List Char}, clLt a b = true → clLt b a = false := by
  intro a
  induction a with
  | nil =>
    intro b h
    cases b with
    | nil => rfl
    | cons x xs => rfl
  | cons x xs ih =>
    intro b h
    cases b with
    | nil => simp [clLt] at h
    | cons y ys =>
      simp only [clLt] at h ⊢
      by_cases h1 : x.toNat < y.toNat
      · simp only [if_pos h1]
        have h2 : ¬ y.toNat < x.toNat := by omega
        simp [if_neg h2, h1]
      · by_cases h2 : y.toNat < x.toNat
        · simp [if_neg h1, if_pos h2] at h
        · simp only [if_neg h1, if_neg h2] at h ⊢
          exact ih h

theorem clLt_trans : ∀ {a b c : List Char},
    clLt a b = true → clLt b c = true → clLt a c = true := by
  intro a
  induction a with
  | nil =>
    intro b c hab hbc
    cases b with
    | nil => simp [clLt] at hab
    | cons y ys =>
      cases c with
      | nil => simp [clLt] at hbc
      | cons z zs => rfl
  | cons x xs ih =>
    intro b c hab hbc
    cases b with
    | nil => simp [clLt] at hab
    | cons y ys =>
      cases c with
      | nil => simp [clLt] at hbc
      | cons z zs =>
        simp only [clLt] at hab hbc ⊢
        by_cases hxy : x.toNat < y.toNat
        · by_cases hyz : y.toNat < z.toNat
          · have : x.toNat < z.toNat := by omega
            simp [this]
          · by_cases hzy : z.toNat < y.toNat
            · simp [if_neg hyz, if_pos hzy] at hbc
            · have hyz2 : y.toNat = z.toNat := by omega
              have : x.toNat < z.toNat := by omega
              simp [this]
        · by_cases hyx : y.toNat < x.toNat
          · simp [if_neg hxy, if_pos hyx] at hab
          · have hxy2 : x.toNat = y.toNat := by omega
            simp only [if_neg hxy, if_neg hyx] at hab
            by_cases hyz : y.toNat < z.toNat
            · have : x.toNat < z.toNat := by omega
              simp [this]
            · by_cases hzy : z.toNat < y.toNat
              · simp [if_neg hyz, if_pos hzy] at hbc
              · simp only [if_neg hyz, if_neg hzy] at hbc
                have h1 : ¬ x.toNat < z.toNat := by omega
                have h2 : ¬ z.toNat < x.toNat := by omega
                simp only [if_neg h1, if_neg h2]
                exact ih hab hbc

theorem clLt_connex : ∀ {a b : List Char},
    clLt a b = false → clLt b a = false → a = b := by
  intro a
  induction a with
  | nil =>
    intro b hab _
    cases b with
    | nil => rfl
    | cons y ys => simp [clLt] at hab
  | cons x xs ih =>
    intro b hab hba
    cases b with
    | nil => simp [clLt] at hba
    | cons y ys =>
      simp only [clLt] at hab hba
      by_cases hxy : x.toNat < y.toNat
      · simp [if_pos hxy] at hab
      · by_cases hyx : y.toNat < x.toNat
        · simp [if_pos hyx] at hba
        · simp only [if_neg hxy, if_neg hyx] at hab hba
          have hn : x.toNat = y.toNat := by omega
          have hchar : x = y := Char.ext (UInt32.ext hn)
          rw [hchar, ih hab hba]

theorem pyLt_irrefl (s : String) : pyLt s s = false := clLt_irrefl s.data

theorem pyLt_asymm {s t : String} (h : pyLt s t = true) : pyLt t s = false :=
  clLt_asymm h

theorem pyLt_trans {a b c : String} (h1 : pyLt a b = true) (h2 : pyLt b c = true) :
    pyLt a c = true := clLt_trans h1 h2

theorem pyLt_connex {a b : String} (h1 : pyLt a b = false) (h2 : pyLt b a = false) :
    a = b := by
  have h : a.data = b.data := clLt_connex h1 h2
  cases a
  cases b
  exact congrArg String.mk h

theorem pyLt_trichotomy (a b : String) :
    pyLt a b = true ∨ a = b ∨ pyLt b a = true := by
  by_cases h1 : pyLt a b = true
  · exact Or.inl h1
  · by_cases h2 : pyLt b a = true
    · exact Or.inr (Or.inr h2)
    · exact Or.inr (Or.inl (pyLt_connex (Bool.not_eq_true _ ▸ h1)
        (Bool.not_eq_true _ ▸ h2)))

theorem pyLt_neg_trans {a b c : String} (h1 : pyLt b a = false)
    (h2 : pyLt c b = false) : pyLt c a = false := by
  rcases pyLt_trichotomy c a with h | h | h
  · rcases pyLt_trichotomy c b with g | g | g
    · rw [g] at h2; cases h2
    · rw [g]
      exact h1
    · have := pyLt_trans g h
      rw [this] at h1; cases h1
  · subst h
    exact pyLt_irrefl _
  · exact pyLt_asymm h

/-- Model of Python's `str.split(sep)` on character lists (always returns at
least one component; keeps empty components, like Python). -/
def splitOnChar (sep : Char) : List Char → List (List Char)
  | [] => [[]]
  | c :: cs =>
    match splitOnChar sep cs with
    | [] => [[]]
    | h :: t => if c = sep then [] :: h :: t else (c :: h) :: t

/-- Inverse of `splitOnChar`: interleave the separator between components. -/
def joinSep (sep : Char) : List (List Char) → List Char
  | [] => []
  | [x] => x
  | x :: y :: rest => x ++ sep :: joinSep sep (y :: rest)

theorem splitOnChar_ne_nil (sep : Char) (cs : List Char) :
    splitOnChar sep cs ≠ [] := by
  cases cs with
  | nil => simp [splitOnChar]
  | cons c cs =>
    simp only [splitOnChar]
    match splitOnChar sep cs with
    | [] => simp
    | h :: t =>
      by_cases hc : c = sep
      · simp [hc]
      · simp [hc]

theorem joinSep_splitOnChar (sep : Char) : ∀ cs : List Char,
    joinSep sep (splitOnChar sep cs) = cs := by
  intro cs
  induction cs with
  | nil => rfl
  | cons c cs ih =>
    simp only [splitOnChar]
    rcases hs : splitOnChar sep cs with _ | ⟨h, t⟩
    · exact absurd hs (splitOnChar_ne_nil sep cs)
    · rw [hs] at ih
      by_cases hc : c = sep
      · simp only [if_pos hc]
        cases t with
        | nil =>
          simp only [joinSep] at ih ⊢
          rw [ih, hc]
          simp
        | cons t0 t1 =>
          simp only [joinSep] at ih ⊢
          rw [ih, hc]
          simp
      · simp only [if_neg hc]
        cases t with
        | nil =>
          simp only [joinSep] at ih ⊢
          rw [ih]
        | cons t0 t1 =>
          simp only [joinSep] at ih ⊢
          rw [List.cons_append, ih]

/-- A nonempty all-ASCII-digit component (what one `\d+` group of the version
regular expression, or one numeric component of a date, may contain). -/
def isDigits (cs : List Char) : Bool := !cs.isEmpty && cs.all Char.isDigit

/-- Numeric value of a digit string, as Python's `int` / `strptime` read it. -/
def natOfDigits (cs : List Char) : Nat :=
  cs.foldl (fun n c => n * 10 + (c.toNat - 48)) 0

/-- The `\d+\.\d+\.\d+` core of the version pattern: exactly three
dot-separated nonempty digit groups, returned as a numeric triple. -/
def semverCore (cs : List Char) : Option (Nat × Nat × Nat) :=
  match splitOnChar '.' cs with
  | [a, b, c] =>
    if isDigits a && isDigits b && isDigits c then
      some (natOfDigits a, natOfDigits b, natOfDigits c)
    else none
  | _ => none

/-- The optional leading `v` of the pattern `^(v)?...`. -/
def stripV (cs : List Char) : List Char :=
  match cs with
  | c :: rest => if c = 'v' then rest else cs
  | [] => cs

/-- Python's `$` anchor in `re.match` also accepts one trailing newline. -/
def dropTrailingNewline (cs : List Char) : List Char :=
  if cs.getLast? = some '\n' then cs.dropLast else cs

/-- Model of re.match applied to the pattern of is_valid_version (optional v
followed by three dot-separated digit groups, anchored), returning the three
numeric components on success. -/
def pyRegexSemver (s : String) : Option (Nat × Nat × Nat) :=
  semverCore (stripV (dropTrailingNewline s.data))

/-- utils.is_valid_version: the version pattern, excluding the reserved
zero versions. -/
def is_valid_version (version : String) : Bool :=
  if version = "v0.0.0" || version = "0.0.0" then false
  else (pyRegexSemver version).isSome

/-- Models packaging.version.parse restricted to the dotted three-component
grammar this library feeds it; parse failures on other inputs are ValueError
(InvalidVersion) in Python, here None. -/
def parseVersion (s : String) : Option (Nat × Nat × Nat) := pyRegexSemver s

/-- packaging precedence on parsed three-component releases: lexicographic
comparison of the numeric triples. -/
def verLe : Nat × Nat × Nat → Nat × Nat × Nat → Bool
  | (a1, a2, a3), (b1, b2, b3) =>
    decide (a1 < b1) ||
      (a1 == b1 && (decide (a2 < b2) || (a2 == b2 && decide (a3 ≤ b3))))

/-- Python's `version.startswith("v")`. -/
def startsWithV (s : String) : Bool :=
  match s.data with
  | c :: _ => c = 'v'
  | [] => false

/-- utils.normalize_version. -/
def normalize_version (version : String) : String :=
  if is_valid_version version && !startsWithV version then "v" ++ version
  else version

/-- Gregorian leap-year rule, as datetime implements it. -/
def isLeapYear (y : Nat) : Bool := y % 4 = 0 && (y % 100 ≠ 0 || y % 400 = 0)

/-- Days in a month, as datetime.strptime validates them. -/
def daysInMonth (y m : Nat) : Nat :=
  if m = 2 then (if isLeapYear y then 29 else 28)
  else if m = 4 || m = 6 || m = 9 || m = 11 then 30
  else 31

/-- utils.is_valid_date: exactly three hyphen-separated digit components of
widths 4-2-2 that datetime.strptime("%Y-%m-%d") accepts as a real calendar
date (year at least 1, month 1..12, day within the month). -/
def is_valid_date (date_string : String) : Bool :=
  match splitOnChar '-' date_string.data with
  | [y, m, d] =>
    y.length = 4 && isDigits y && m.length = 2 && isDigits m &&
    d.length = 2 && isDigits d &&
    (let yn := natOfDigits y
     let mn := natOfDigits m
     let dn := natOfDigits d
     decide (1 ≤ yn) && decide (1 ≤ mn) && decide (mn ≤ 12) &&
       decide (1 ≤ dn) && decide (dn ≤ daysInMonth yn mn))
  | _ => false

example : is_valid_version "v1.0.0" = true := by decide
example : is_valid_version "1.0.0" = true := by decide
example : is_valid_version "0.0.0" = false := by decide
example : is_valid_version "v0.0.0" = false := by decide
example : is_valid_version "g1.0.0" = false := by decide
example : is_valid_version "invalid" = false := by decide
example : is_valid_version "" = false := by decide
example : is_valid_version "v1.0" = false := by decide
example : is_valid_version "1.0.0.0" = false := by decide
example : is_valid_date "2024-04-29" = true := by decide
example : is_valid_date "2024-4-29" = false := by decide
example : is_valid_date "2024-02-30" = false := by decide
example : is_valid_date "2024-02-29" = true := by decide
example : is_valid_date "2023-02-29" = false := by decide
example : is_valid_date "24-04-29" = false := by decide
example : is_valid_date "invalid" = false := by decide
example : is_valid_date "" = false := by decide
example : normalize_version "1.0.0" = "v1.0.0" := by decide
example : normalize_version "v1.0.0" = "v1.0.0" := by decide
example : normalize_version "2024-04-29" = "2024-04-29" := by decide

/-- The error taxonomy surfaced by the embedded code paths.  ValueError with
message "Invalid version format" / "Invalid date format" is invalidFormat;
ValueError "No available versions found" is noVersionsAvailable; IndexError
from indexing an empty list is indexError; KeyError from the final
dictionary lookup carries the missing key; the ValueError raised by
group_and_sort_routes for an unclassifiable key is ambiguousKey; the 422 for
a missing header value is missingVersion. -/
inductive Err where
  | missingVersion
  | invalidFormat
  | noVersionsAvailable
  | indexError
  | keyError (k : String)
  | ambiguousKey (k : String)
deriving DecidableEq

instance instDecEqExcept {ε α : Type} [DecidableEq ε] [DecidableEq α] :
    DecidableEq (Except ε α)
  | .ok a, .ok b =>
    if h : a = b then .isTrue (by rw [h])
    else .isFalse (by intro he; cases he; exact h rfl)
  | .ok _, .error _ => .isFalse (by intro he; cases he)
  | .error _, .ok _ => .isFalse (by intro he; cases he)
  | .error e, .error f =>
    if h : e = f then .isTrue (by rw [h])
    else .isFalse (by intro he; cases he; exact h rfl)

/-- Python's builtin `max` over a list of strings: scans left to right and
keeps the current item when the next one is not strictly greater. -/
def pyMax : List String → Option String
  | [] => none
  | x :: xs => some (xs.foldl (fun m v => if pyLt m v then v else m) x)

/-- Does a candidate parse and compare at most the target precedence?  This is
the predicate of the generator inside find_closest_version. -/
def qualifiesB (tv : Nat × Nat × Nat) (v : String) : Bool :=
  match parseVersion v with
  | some pv => verLe pv tv
  | none => false

/-- The list the generator `(v for v in available_versions if parse(v) <=
parse(target))` produces, or None when some candidate fails to parse (the
ValueError that the surrounding try/except catches). -/
def qualifying (tv : Nat × Nat × Nat) : List String → Option (List String)
  | [] => some []
  | v :: vs =>
    match parseVersion v with
    | none => none
    | some pv =>
      match qualifying tv vs with
      | none => none
      | some rest => some (if verLe pv tv then v :: rest else rest)

/-- utils.find_closest_version.  The try block normalizes the target and the
candidate list, then takes `max` (string comparison) of the parsed-precedence
filter; any ValueError inside the try (a candidate failing to parse, or `max`
on an empty sequence) falls back to the first element of the rebound
normalized list, or raises "No available versions found" when it is empty. -/
def find_closest_version (target_version : String)
    (available_versions : List String) : Except Err String :=
  if is_valid_version target_version then
    let t := normalize_version target_version
    let navail := available_versions.map normalize_version
    let best : Option String :=
      match parseVersion t with
      | none => none
      | some tv =>
        match qualifying tv navail with
        | none => none
        | some qs => pyMax qs
    match best with
    | some m => .ok m
    | none =>
      match navail with
      | v :: _ => .ok v
      | [] => .error .noVersionsAvailable
  else .error .invalidFormat

/-- Insert a string into a list, before the first element it does not
strictly exceed. -/
def insertStr (x : String) : List String → List String
  | [] => [x]
  | y :: ys => if pyLt y x then y :: insertStr x ys else x :: y :: ys

/-- Python's `sorted` on a list of strings.  Timsort is a comparison sort by
`<`; on a total order its output is the unique `<=`-sorted permutation, which
this insertion sort also produces. -/
def pySorted : List String → List String
  | [] => []
  | x :: xs => insertStr x (pySorted xs)

/-- bisect.bisect_left on a list known to be sorted ascending: the number of
leading elements strictly below the probe, i.e. the insertion point. -/
def bisect_left (t : String) : List String → Nat
  | [] => 0
  | d :: ds => if pyLt d t then bisect_left t ds + 1 else 0

/-- The insertion-point clamp of find_closest_date on the already-sorted
list: first element when inserting at 0 (an IndexError when the list is
empty), last element when inserting at the end, else the element just before
the insertion point.  (The Python body keeps the sorted list and the index in
local variables; they are inlined here.) -/
def fcdSearch (t : String) (s : List String) : Except Err String :=
  if bisect_left t s = 0 then
    match s with
    | [] => .error .indexError
    | d :: _ => .ok d
  else if bisect_left t s = s.length then
    match s.getLast? with
    | some d => .ok d
    | none => .error .indexError
  else
    match s[bisect_left t s - 1]? with
    | some d => .ok d
    | none => .error .indexError

/-- utils.find_closest_date: exact membership returns the target; otherwise
sort ascending and clamp around the binary-searched insertion point. -/
def find_closest_date (target_date : String)
    (available_dates : List String) : Except Err String :=
  if is_valid_date target_date then
    if available_dates.contains target_date then .ok target_date
    else fcdSearch target_date (pySorted available_dates)
  else .error .invalidFormat

example : find_closest_version "v1.2.3"
    ["v1.0.0", "v1.1.0", "v1.2.0", "v1.2.1", "v1.2.2", "v1.2.4"] =
    .ok "v1.2.2" := by decide
example : find_closest_version "v1.1.5"
    ["v1.0.0", "v1.1.0", "v1.2.0", "v1.2.1", "v1.2.2", "v1.2.4"] =
    .ok "v1.1.0" := by decide
example : find_closest_version "v2.0.0" ["v1.0.0", "v1.1.0", "v1.2.0"] =
    .ok "v1.2.0" := by decide
example : find_closest_version "v1.0.0" ["v1.1.0", "v1.2.0", "v1.3.0"] =
    .ok "v1.1.0" := by decide
example : find_closest_version "v1.1.0" ["v1.0.0", "v1.1.0", "v1.2.0"] =
    .ok "v1.1.0" := by decide
example : find_closest_version "v1.0.0" [] = .error .noVersionsAvailable := by
  decide
example : find_closest_version "invalid-version" ["v1.0.0"] =
    .error .invalidFormat := by decide
example : find_closest_date "2024-04-15" ["2024-04-10", "2024-04-15", "2024-04-20"]
    = .ok "2024-04-15" := by decide
example : find_closest_date "2024-04-17" ["2024-04-10", "2024-04-15", "2024-04-20"]
    = .ok "2024-04-15" := by decide
example : find_closest_date "2024-04-12" ["2024-04-10", "2024-04-15", "2024-04-20"]
    = .ok "2024-04-10" := by decide
example : find_closest_date "2024-03-15" ["2024-02-10", "2024-03-16", "2024-01-05", "2024-04-25"]
    = .ok "2024-02-10" := by decide
example : find_closest_date "2024-04-15" ["2024-02-10", "2024-03-16", "2024-01-05", "2024-04-25"]
    = .ok "2024-03-16" := by decide
example : find_closest_date "2024-04-05" ["2024-04-10", "2024-04-15", "2024-04-20"]
    = .ok "2024-04-10" := by decide
example : find_closest_date "2024-04-25" ["2024-04-10", "2024-04-15", "2024-04-20"]
    = .ok "2024-04-20" := by decide
example : find_closest_date "2024-4-3" ["2024-04-10"] = .error .invalidFormat := by
  decide

/-- The value group_and_sort_routes returns: the two sorted-by-key mappings
(association lists in their dictionary order). -/
structure GroupedIndex where
  sorted_date_routes : List (String × List Nat)
  sorted_version_routes : List (String × List Nat)
deriving DecidableEq

/-- The routing-relevant state of a VersionAwareAPIRouter: the versioned
route table (a dict, i.e. an insertion-ordered association list with unique
keys), the unversioned route list, and the lru_cache cell of
group_and_sort_routes.  The cache is keyed on the instance; the instance's
hash — hash(bound method) = pointer hash of the instance combined with the
hash of the function — is constant for the object's lifetime and its
equality is identity, so on one instance every call after the first
successful one is a cache hit, whatever happened to versionedRouters in
between.  (lru_cache does not cache raised exceptions.) -/
structure RouterState where
  versionedRouters : List (String × List Nat)
  unversionedRouters : List Nat
  groupCache : Option GroupedIndex
deriving DecidableEq

/-- Insert one dict item into an item list sorted by key, as Python's
`sorted(d.items())` orders items (tuple comparison starts with the key, and
dict keys are unique, so only the key comparison ever decides). -/
def insertItem (p : String × List Nat) :
    List (String × List Nat) → List (String × List Nat)
  | [] => [p]
  | q :: qs => if pyLt q.1 p.1 then q :: insertItem p qs else p :: q :: qs

/-- Model of OrderedDict(sorted(d.items())) for a routes dict. -/
def sortItems : List (String × List Nat) → List (String × List Nat)
  | [] => []
  | p :: ps => insertItem p (sortItems ps)

/-- The classification loop of group_and_sort_routes: date keys to the first
dict, version keys to the second, and a ValueError on the first key that is
neither. -/
def partitionRoutes : List (String × List Nat) →
    Except Err (List (String × List Nat) × List (String × List Nat))
  | [] => .ok ([], [])
  | (k, v) :: rest =>
    if is_valid_date k then
      match partitionRoutes rest with
      | .error e => .error e
      | .ok (d, sv) => .ok ((k, v) :: d, sv)
    else if is_valid_version k then
      match partitionRoutes rest with
      | .error e => .error e
      | .ok (d, sv) => .ok (d, (k, v) :: sv)
    else .error (.ambiguousKey k)

/-- The uncached body of group_and_sort_routes. -/
def computeGroupAndSort (table : List (String × List Nat)) :
    Except Err GroupedIndex :=
  match partitionRoutes table with
  | .error e => .error e
  | .ok (d, sv) => .ok ⟨sortItems d, sortItems sv⟩

/-- routers.VersionAwareAPIRouter.group_and_sort_routes with its lru_cache
behaviour (see RouterState): a present cache entry is returned as-is, a miss
computes, stores and returns. -/
def group_and_sort_routes (st : RouterState) :
    Except Err (GroupedIndex × RouterState) :=
  match st.groupCache with
  | some g => .ok (g, st)
  | none =>
    match computeGroupAndSort st.versionedRouters with
    | .error e => .error e
    | .ok g => .ok (g, { st with groupCache := some g })

/-- Dictionary lookup `d[k]` / `d.get(k)` on the association list. -/
def lookupTable (k : String) : List (String × List Nat) → Option (List Nat)
  | [] => none
  | (k2, v) :: rest => if k2 = k then some v else lookupTable k rest

/-- routers.VersionAwareAPIRouter._pick_version: classify the header, resolve
it against the matching sorted key list, and index the routes dict with the
resolved key.  (The context-variable bookkeeping is observability only and
does not affect the result.) -/
def pickVersion (st : RouterState) (header : String) :
    Except Err (List Nat × RouterState) :=
  match group_and_sort_routes st with
  | .error e => .error e
  | .ok (g, st2) =>
    let closest :=
      if is_valid_date header then
        find_closest_date header (g.sorted_date_routes.map Prod.fst)
      else
        find_closest_version header (g.sorted_version_routes.map Prod.fst)
    match closest with
    | .error e => .error e
    | .ok c =>
      match lookupTable c st2.versionedRouters with
      | some routes => .ok (routes, st2)
      | none => .error (.keyError c)

/-- routers.VersionAwareAPIRouter._get_routes_for_version.  Python evaluates
the default argument of `.get` eagerly, so _pick_version runs (and its
exceptions propagate) even when the header is an exact key. -/
def getRoutesForVersion (st : RouterState) (header : String) :
    Except Err (List Nat × RouterState) :=
  if header = "" then .ok (st.unversionedRouters, st)
  else
    match pickVersion st header with
    | .error e => .error e
    | .ok (pick, st2) =>
      match lookupTable header st.versionedRouters with
      | some routes => .ok (routes, st2)
      | none => .ok (pick, st2)

/-- utils.validate_version (the HTTP 422 exceptions become errors). -/
def validate_version (version : String) : Except Err Unit :=
  if version = "" then .error .missingVersion
  else if is_valid_version version || is_valid_date version then .ok ()
  else .error .invalidFormat

/-- Model of the setdefault-append accumulation: extend an existing bucket
in place, or append a new key at the end of the dict order. -/
def appendUnder (k : String) (rs : List Nat) :
    List (String × List Nat) → List (String × List Nat)
  | [] => [(k, rs)]
  | (k2, rs2) :: rest =>
    if k2 = k then (k2, rs2 ++ rs) :: rest else (k2, rs2) :: appendUnder k rs rest

/-- handlers.HeaderBasedVersionHandler.include_router, versioned branch:
validate the token, then append the added routes to the bucket stored under
the normalized key.  The group_and_sort_routes cache cell is not touched. -/
def includeRouterVersioned (st : RouterState) (version : String)
    (routes : List Nat) : Except Err RouterState :=
  match validate_version version with
  | .error e => .error e
  | .ok _ =>
    .ok { st with
      versionedRouters := appendUnder (normalize_version version) routes
        st.versionedRouters }

/-- handlers.HeaderBasedVersionHandler.include_router, unversioned branch. -/
def includeRouterUnversioned (st : RouterState) (routes : List Nat) :
    RouterState :=
  { st with unversionedRouters := st.unversionedRouters ++ routes }

example : getRoutesForVersion ⟨[("v1.0.0", [1])], [0], none⟩ "" =
    .ok ([0], ⟨[("v1.0.0", [1])], [0], none⟩) := by decide
example : getRoutesForVersion ⟨[("v1.0.0", [1])], [0], none⟩ "v1.0.0" =
    .ok ([1], ⟨[("v1.0.0", [1])], [0],
      some ⟨[], [("v1.0.0", [1])]⟩⟩) := by decide
example : getRoutesForVersion ⟨[("v1.0.0", [1])], [0], none⟩ "v1.5.0" =
    .ok ([1], ⟨[("v1.0.0", [1])], [0],
      some ⟨[], [("v1.0.0", [1])]⟩⟩) := by decide
example : getRoutesForVersion ⟨[("v1.0.0", [1]), ("2024-04-29", [2])], [0], none⟩
    "2024-05-01" =
    .ok ([2], ⟨[("v1.0.0", [1]), ("2024-04-29", [2])], [0],
      some ⟨[("2024-04-29", [2])], [("v1.0.0", [1])]⟩⟩) := by decide
example : includeRouterVersioned ⟨[], [], none⟩ "1.0.0" [1] =
    .ok ⟨[("v1.0.0", [1])], [], none⟩ := by decide
example : includeRouterVersioned ⟨[], [], none⟩ "nope" [1] =
    .error .invalidFormat := by decide
example : includeRouterVersioned ⟨[], [], none⟩ "" [1] =
    .error .missingVersion := by decide

theorem isDigits_mem {cs : List Char} (h : isDigits cs = true) :
    ∀ c ∈ cs, c.isDigit = true := by
  unfold isDigits at h
  rw [Bool.and_eq_true, List.all_eq_true] at h
  exact fun c hc => h.2 c hc

theorem valid_version_parses {s : String} (h : is_valid_version s = true) :
    ∃ t, parseVersion s = some t := by
  unfold is_valid_version at h
  by_cases hx : (s = "v0.0.0" || s = "0.0.0") = true
  · rw [if_pos hx] at h
    cases h
  · rw [if_neg hx] at h
    exact Option.isSome_iff_exists.mp h

theorem semverCore_eq_of_split {cs a b c3 : List Char}
    (hs : splitOnChar '.' cs = [a, b, c3]) :
    semverCore cs =
      if (isDigits a && isDigits b && isDigits c3) = true then
        some (natOfDigits a, natOfDigits b, natOfDigits c3)
      else none := by
  unfold semverCore
  rw [hs]

theorem semverCore_chars {cs : List Char} {t : Nat × Nat × Nat}
    (h : semverCore cs = some t) : ∀ c ∈ cs, c.isDigit = true ∨ c = '.' := by
  unfold semverCore at h
  rcases hs : splitOnChar '.' cs with _ | ⟨a, _ | ⟨b, _ | ⟨c3, _ | ⟨e, rest⟩⟩⟩⟩ <;>
    rw [hs] at h
  · cases h
  · cases h
  · cases h
  · by_cases hd : (isDigits a && isDigits b && isDigits c3) = true
    · have hcs : a ++ '.' :: (b ++ '.' :: c3) = cs := by
        have hj := joinSep_splitOnChar '.' cs
        rw [hs] at hj
        simpa [joinSep] using hj
      rw [Bool.and_eq_true, Bool.and_eq_true] at hd
      intro c hc
      rw [← hcs] at hc
      rcases List.mem_append.mp hc with hc | hc
      · exact Or.inl (isDigits_mem hd.1.1 c hc)
      · rcases List.mem_cons.mp hc with hc | hc
        · exact Or.inr hc
        · rcases List.mem_append.mp hc with hc | hc
          · exact Or.inl (isDigits_mem hd.1.2 c hc)
          · rcases List.mem_cons.mp hc with hc | hc
            · exact Or.inr hc
            · exact Or.inl (isDigits_mem hd.2 c hc)
    · have h2 :
          (if (isDigits a && isDigits b && isDigits c3) = true then
            some (natOfDigits a, natOfDigits b, natOfDigits c3)
          else none) = some t := h
      rw [if_neg hd] at h2
      cases h2
  · cases h

theorem isDigit_ne_newline {c : Char} (h : c.isDigit = true) : c ≠ '\n' := by
  intro he
  rw [he] at h
  exact absurd h (by decide)

theorem isDigit_ne_v {c : Char} (h : c.isDigit = true) : c ≠ 'v' := by
  intro he
  rw [he] at h
  exact absurd h (by decide)

theorem stripV_cons (c : Char) (l : List Char) :
    stripV (c :: l) = if c = 'v' then l else c :: l := rfl

theorem date_shape {s : String} (h : is_valid_date s = true) :
    ∃ y m d, splitOnChar '-' s.data = [y, m, d] ∧ y.length = 4 ∧
      isDigits y = true ∧ m.length = 2 ∧ isDigits m = true ∧
      d.length = 2 ∧ isDigits d = true := by
  unfold is_valid_date at h
  rcases hs : splitOnChar '-' s.data with _ | ⟨y, _ | ⟨m, _ | ⟨d, _ | ⟨e, rest⟩⟩⟩⟩ <;>
    rw [hs] at h
  · cases h
  · cases h
  · cases h
  · refine ⟨y, m, d, rfl, ?_⟩
    simp only [Bool.and_eq_true, decide_eq_true_eq] at h
    exact ⟨h.1.1.1.1.1.1, h.1.1.1.1.1.2, h.1.1.1.1.2, h.1.1.1.2, h.1.1.2, h.1.2⟩
  · cases h

theorem date_not_version {s : String} (h : is_valid_date s = true) :
    is_valid_version s = false := by
  by_contra hv
  have hv : is_valid_version s = true := by
    cases hb : is_valid_version s
    · exact absurd hb hv
    · rfl
  obtain ⟨y, m, d, hs, hy4, hyd, hm2, hmd, hd2, hdd⟩ := date_shape h
  obtain ⟨t, ht⟩ := valid_version_parses hv
  unfold parseVersion pyRegexSemver at ht
  have hdata : y ++ '-' :: (m ++ '-' :: d) = s.data := by
    have hj := joinSep_splitOnChar '-' s.data
    rw [hs] at hj
    simpa [joinSep] using hj
  obtain ⟨m0, m1, hm⟩ := List.length_eq_two.mp hm2
  obtain ⟨d0, d1, hd⟩ := List.length_eq_two.mp hd2
  have hd1 : d1.isDigit = true := isDigits_mem hdd d1 (by simp [hd])
  have hlast : s.data.getLast? = some d1 := by
    rw [← hdata, List.getLast?_append, hm, hd]
    rfl
  have hdrop : dropTrailingNewline s.data = s.data := by
    unfold dropTrailingNewline
    rw [hlast]
    rw [if_neg]
    intro he
    exact isDigit_ne_newline hd1 (by injection he)
  cases y with
  | nil => simp at hy4
  | cons y0 yt =>
    have hy0 : y0.isDigit = true := isDigits_mem hyd y0 (by simp)
    have hsv : stripV s.data = s.data := by
      rw [← hdata, List.cons_append, stripV_cons, if_neg (isDigit_ne_v hy0)]
    rw [hdrop, hsv] at ht
    have hmem : '-' ∈ s.data := by
      rw [← hdata]
      exact List.mem_append.mpr (Or.inr (List.mem_cons.mpr (Or.inl rfl)))
    rcases semverCore_chars ht '-' hmem with hc | hc
    · exact absurd hc (by decide)
    · exact absurd hc (by decide)

theorem startsWithV_v_append (s : String) : startsWithV ("v" ++ s) = true := by
  have h : ("v" ++ s).data = 'v' :: s.data := by
    rw [String.data_append]
    rfl
  unfold startsWithV
  rw [h]
  simp

theorem normalize_version_of_cond_false {s : String}
    (h : (is_valid_version s && !startsWithV s) = false) :
    normalize_version s = s := by
  unfold normalize_version
  rw [h]
  rfl

theorem normalize_version_of_cond_true {s : String}
    (h : (is_valid_version s && !startsWithV s) = true) :
    normalize_version s = "v" ++ s := by
  unfold normalize_version
  rw [h]
  rfl

theorem normalize_version_idem (s : String) :
    normalize_version (normalize_version s) = normalize_version s := by
  cases hc : (is_valid_version s && !startsWithV s) with
  | false => rw [normalize_version_of_cond_false hc, normalize_version_of_cond_false hc]
  | true =>
    rw [normalize_version_of_cond_true hc]
    apply normalize_version_of_cond_false
    rw [startsWithV_v_append]
    simp

theorem normalize_version_of_date {s : String} (h : is_valid_date s = true) :
    normalize_version s = s := by
  apply normalize_version_of_cond_false
  rw [date_not_version h]
  rfl

theorem verLe_refl (t : Nat × Nat × Nat) : verLe t t = true := by
  obtain ⟨a, b, c⟩ := t
  simp [verLe]

theorem foldlMax_mem : ∀ (xs : List String) (x : String),
    xs.foldl (fun m v => if pyLt m v then v else m) x = x ∨
    xs.foldl (fun m v => if pyLt m v then v else m) x ∈ xs := by
  intro xs
  induction xs with
  | nil => intro x; exact Or.inl rfl
  | cons w ws ih =>
    intro x
    simp only [List.foldl_cons]
    rcases ih (if pyLt x w then w else x) with h | h
    · rw [h]
      by_cases hw : pyLt x w = true
      · rw [if_pos hw]
        exact Or.inr (List.mem_cons.mpr (Or.inl rfl))
      · rw [if_neg hw]
        exact Or.inl rfl
    · exact Or.inr (List.mem_cons.mpr (Or.inr h))

theorem foldlMax_ge : ∀ (xs : List String) (x v : String),
    (v = x ∨ v ∈ xs) →
    pyLt (xs.foldl (fun m v => if pyLt m v then v else m) x) v = false := by
  intro xs
  induction xs with
  | nil =>
    intro x v hv
    rcases hv with hv | hv
    · rw [hv]
      exact pyLt_irrefl x
    · cases hv
  | cons w ws ih =>
    intro x v hv
    simp only [List.foldl_cons]
    rcases hv with hv | hv
    · by_cases hw : pyLt x w = true
      · rw [if_pos hw]
        have hge := ih w w (Or.inl rfl)
        by_cases hr : pyLt (ws.foldl (fun m u => if pyLt m u then u else m) w) v = true
        · rw [hv] at hr
          have h3 := pyLt_trans hr hw
          rw [h3] at hge
          cases hge
        · exact Bool.not_eq_true _ ▸ hr
      · rw [if_neg hw]
        exact ih x v (Or.inl hv)
    · rcases List.mem_cons.mp hv with hv | hv
      · subst hv
        by_cases hw : pyLt x v = true
        · rw [if_pos hw]
          exact ih v v (Or.inl rfl)
        · rw [if_neg hw]
          have h1 : pyLt x v = false := Bool.not_eq_true _ ▸ hw
          have h2 := ih x x (Or.inl rfl)
          exact pyLt_neg_trans h1 h2
      · by_cases hw : pyLt x w = true
        · rw [if_pos hw]
          exact ih w v (Or.inr hv)
        · rw [if_neg hw]
          exact ih x v (Or.inr hv)

theorem pyMax_mem {l : List String} {m : String} (h : pyMax l = some m) :
    m ∈ l := by
  cases l with
  | nil => cases h
  | cons x xs =>
    have hm : xs.foldl (fun m v => if pyLt m v then v else m) x = m := by
      injection h
    rcases foldlMax_mem xs x with h2 | h2
    · rw [hm] at h2
      exact List.mem_cons.mpr (Or.inl h2)
    · rw [hm] at h2
      exact List.mem_cons.mpr (Or.inr h2)

theorem pyMax_ge {l : List String} {m : String} (h : pyMax l = some m) :
    ∀ v ∈ l, pyLt m v = false := by
  cases l with
  | nil => cases h
  | cons x xs =>
    have hm : xs.foldl (fun m v => if pyLt m v then v else m) x = m := by
      injection h
    intro v hv
    rw [← hm]
    rcases List.mem_cons.mp hv with hv | hv
    · exact foldlMax_ge xs x v (Or.inl hv)
    · exact foldlMax_ge xs x v (Or.inr hv)

theorem pyMax_of_ne_nil {l : List String} (h : l ≠ []) :
    ∃ m, pyMax l = some m := by
  cases l with
  | nil => exact absurd rfl h
  | cons x xs => exact ⟨_, rfl⟩

theorem qualifying_sound {tv : Nat × Nat × Nat} :
    ∀ {l qs : List String}, qualifying tv l = some qs →
      ∀ v ∈ qs, v ∈ l ∧ qualifiesB tv v = true := by
  intro l
  induction l with
  | nil =>
    intro qs h v hv
    cases h
    cases hv
  | cons w ws ih =>
    intro qs h v hv
    simp only [qualifying] at h
    rcases hp : parseVersion w with _ | pv
    · rw [hp] at h
      cases h
    · rw [hp] at h
      rcases hq : qualifying tv ws with _ | rest
      · rw [hq] at h
        cases h
      · rw [hq] at h
        have hqs : (if verLe pv tv = true then w :: rest else rest) = qs := by
          injection h
        by_cases hle : verLe pv tv = true
        · rw [if_pos hle] at hqs
          rw [← hqs] at hv
          rcases List.mem_cons.mp hv with hv | hv
          · subst hv
            refine ⟨List.mem_cons.mpr (Or.inl rfl), ?_⟩
            unfold qualifiesB
            rw [hp]
            exact hle
          · obtain ⟨h1, h2⟩ := ih hq v hv
            exact ⟨List.mem_cons.mpr (Or.inr h1), h2⟩
        · rw [if_neg hle] at hqs
          rw [← hqs] at hv
          obtain ⟨h1, h2⟩ := ih hq v hv
          exact ⟨List.mem_cons.mpr (Or.inr h1), h2⟩

theorem qualifying_complete {tv : Nat × Nat × Nat} :
    ∀ {l qs : List String}, qualifying tv l = some qs →
      ∀ v ∈ l, qualifiesB tv v = true → v ∈ qs := by
  intro l
  induction l with
  | nil =>
    intro qs h v hv
    cases hv
  | cons w ws ih =>
    intro qs h v hv hqual
    simp only [qualifying] at h
    rcases hp : parseVersion w with _ | pv
    · rw [hp] at h
      cases h
    · rw [hp] at h
      rcases hq : qualifying tv ws with _ | rest
      · rw [hq] at h
        cases h
      · rw [hq] at h
        have hqs : (if verLe pv tv = true then w :: rest else rest) = qs := by
          injection h
        rcases List.mem_cons.mp hv with hv | hv
        · subst hv
          have hle : verLe pv tv = true := by
            unfold qualifiesB at hqual
            rw [hp] at hqual
            exact hqual
          rw [if_pos hle] at hqs
          rw [← hqs]
          exact List.mem_cons.mpr (Or.inl rfl)
        · have hin : v ∈ rest := ih hq v hv hqual
          by_cases hle : verLe pv tv = true
          · rw [if_pos hle] at hqs
            rw [← hqs]
            exact List.mem_cons.mpr (Or.inr hin)
          · rw [if_neg hle] at hqs
            rw [← hqs]
            exact hin

theorem qualifying_isSome {tv : Nat × Nat × Nat} :
    ∀ {l : List String}, (∀ v ∈ l, (parseVersion v).isSome = true) →
      ∃ qs, qualifying tv l = some qs := by
  intro l
  induction l with
  | nil => intro _; exact ⟨[], rfl⟩
  | cons w ws ih =>
    intro h
    obtain ⟨pv, hp⟩ := Option.isSome_iff_exists.mp
      (h w (List.mem_cons.mpr (Or.inl rfl)))
    obtain ⟨rest, hq⟩ := ih (fun v hv => h v (List.mem_cons.mpr (Or.inr hv)))
    refine ⟨if verLe pv tv = true then w :: rest else rest, ?_⟩
    simp only [qualifying]
    rw [hp, hq]

theorem lookupTable_pair_mem : ∀ {table : List (String × List Nat)}
    {k : String} {r : List Nat}, lookupTable k table = some r → (k, r) ∈ table := by
  intro table
  induction table with
  | nil => intro k r h; cases h
  | cons p rest ih =>
    intro k r h
    obtain ⟨k2, v⟩ := p
    simp only [lookupTable] at h
    by_cases hk : k2 = k
    · rw [if_pos hk] at h
      have hv : v = r := by injection h
      subst hk
      subst hv
      exact List.mem_cons.mpr (Or.inl rfl)
    · rw [if_neg hk] at h
      exact List.mem_cons.mpr (Or.inr (ih h))

theorem lookupTable_isSome_of_mem : ∀ {table : List (String × List Nat)}
    {k : String}, k ∈ table.map Prod.fst → ∃ r, lookupTable k table = some r := by
  intro table
  induction table with
  | nil => intro k h; cases h
  | cons p rest ih =>
    intro k h
    obtain ⟨k2, v⟩ := p
    simp only [lookupTable]
    by_cases hk : k2 = k
    · rw [if_pos hk]
      exact ⟨v, rfl⟩
    · rw [if_neg hk]
      apply ih
      simp only [List.map_cons, List.mem_cons] at h
      rcases h with h | h
      · exact absurd h.symm hk
      · exact h

theorem map_normalize_id : ∀ {l : List String},
    (∀ x ∈ l, normalize_version x = x) → l.map normalize_version = l := by
  intro l
  induction l with
  | nil => intro _; rfl
  | cons x xs ih =>
    intro h
    simp only [List.map_cons]
    rw [h x (List.mem_cons.mpr (Or.inl rfl)),
      ih (fun y hy => h y (List.mem_cons.mpr (Or.inr hy)))]

theorem insertStr_perm (x : String) : ∀ l : List String,
    (insertStr x l).Perm (x :: l) := by
  intro l
  induction l with
  | nil => exact List.Perm.refl _
  | cons y ys ih =>
    simp only [insertStr]
    by_cases hy : pyLt y x = true
    · rw [if_pos hy]
      exact ((ih.cons y).trans (List.Perm.swap x y ys))
    · rw [if_neg hy]

theorem pySorted_perm : ∀ l : List String, (pySorted l).Perm l := by
  intro l
  induction l with
  | nil => exact List.Perm.refl _
  | cons x xs ih =>
    simp only [pySorted]
    exact (insertStr_perm x (pySorted xs)).trans (ih.cons x)

theorem insertStr_pairwise (x : String) : ∀ {l : List String},
    l.Pairwise (fun a b => pyLt b a = false) →
    (insertStr x l).Pairwise (fun a b => pyLt b a = false) := by
  intro l
  induction l with
  | nil =>
    intro _
    exact List.pairwise_singleton _ x
  | cons y ys ih =>
    intro h
    obtain ⟨hy, hys⟩ := List.pairwise_cons.mp h
    simp only [insertStr]
    by_cases hlt : pyLt y x = true
    · rw [if_pos hlt]
      apply List.pairwise_cons.mpr
      refine ⟨?_, ih hys⟩
      intro b hb
      rcases List.mem_cons.mp ((insertStr_perm x ys).mem_iff.mp hb) with hb | hb
      · rw [hb]
        exact pyLt_asymm hlt
      · exact hy b hb
    · rw [if_neg hlt]
      apply List.pairwise_cons.mpr
      refine ⟨?_, h⟩
      intro b hb
      rcases List.mem_cons.mp hb with hb | hb
      · rw [hb]
        exact Bool.not_eq_true _ ▸ hlt
      · exact pyLt_neg_trans (Bool.not_eq_true _ ▸ hlt) (hy b hb)

theorem pySorted_pairwise : ∀ l : List String,
    (pySorted l).Pairwise (fun a b => pyLt b a = false) := by
  intro l
  induction l with
  | nil => exact List.Pairwise.nil
  | cons x xs ih =>
    simp only [pySorted]
    exact insertStr_pairwise x ih

theorem insertItem_perm (p : String × List Nat) :
    ∀ l : List (String × List Nat), (insertItem p l).Perm (p :: l) := by
  intro l
  induction l with
  | nil => exact List.Perm.refl _
  | cons q qs ih =>
    simp only [insertItem]
    by_cases hq : pyLt q.1 p.1 = true
    · rw [if_pos hq]
      exact ((ih.cons q).trans (List.Perm.swap p q qs))
    · rw [if_neg hq]

theorem sortItems_perm : ∀ l : List (String × List Nat),
    (sortItems l).Perm l := by
  intro l
  induction l with
  | nil => exact List.Perm.refl _
  | cons p ps ih =>
    simp only [sortItems]
    exact (insertItem_perm p (sortItems ps)).trans (ih.cons p)

theorem insertItem_pairwise (p : String × List Nat) :
    ∀ {l : List (String × List Nat)},
    l.Pairwise (fun a b => pyLt b.1 a.1 = false) →
    (insertItem p l).Pairwise (fun a b => pyLt b.1 a.1 = false) := by
  intro l
  induction l with
  | nil =>
    intro _
    exact List.pairwise_singleton _ p
  | cons q qs ih =>
    intro h
    obtain ⟨hq, hqs⟩ := List.pairwise_cons.mp h
    simp only [insertItem]
    by_cases hlt : pyLt q.1 p.1 = true
    · rw [if_pos hlt]
      apply List.pairwise_cons.mpr
      refine ⟨?_, ih hqs⟩
      intro b hb
      rcases List.mem_cons.mp ((insertItem_perm p qs).mem_iff.mp hb) with hb | hb
      · rw [hb]
        exact pyLt_asymm hlt
      · exact hq b hb
    · rw [if_neg hlt]
      apply List.pairwise_cons.mpr
      refine ⟨?_, h⟩
      intro b hb
      rcases List.mem_cons.mp hb with hb | hb
      · rw [hb]
        exact Bool.not_eq_true _ ▸ hlt
      · exact pyLt_neg_trans (Bool.not_eq_true _ ▸ hlt) (hq b hb)

theorem sortItems_pairwise : ∀ l : List (String × List Nat),
    (sortItems l).Pairwise (fun a b => pyLt b.1 a.1 = false) := by
  intro l
  induction l with
  | nil => exact List.Pairwise.nil
  | cons p ps ih =>
    simp only [sortItems]
    exact insertItem_pairwise p ih

theorem bisect_le_length (t : String) : ∀ s : List String,
    bisect_left t s ≤ s.length := by
  intro s
  induction s with
  | nil => exact Nat.le_refl 0
  | cons d ds ih =>
    simp only [bisect_left]
    by_cases hd : pyLt d t = true
    · rw [if_pos hd]
      simpa using ih
    · rw [if_neg hd]
      exact Nat.zero_le _

theorem bisect_take (t : String) : ∀ s : List String,
    ∀ e ∈ s.take (bisect_left t s), pyLt e t = true := by
  intro s
  induction s with
  | nil => intro e he; cases he
  | cons d ds ih =>
    intro e he
    simp only [bisect_left] at he
    by_cases hd : pyLt d t = true
    · rw [if_pos hd] at he
      rw [List.take_succ_cons] at he
      rcases List.mem_cons.mp he with he | he
      · rw [he]
        exact hd
      · exact ih e he
    · rw [if_neg hd] at he
      cases he

theorem bisect_drop (t : String) : ∀ {s : List String},
    s.Pairwise (fun a b => pyLt b a = false) →
    ∀ e ∈ s.drop (bisect_left t s), pyLt e t = false := by
  intro s
  induction s with
  | nil => intro _ e he; cases he
  | cons d ds ih =>
    intro h e he
    obtain ⟨hd2, hds⟩ := List.pairwise_cons.mp h
    simp only [bisect_left] at he
    by_cases hd : pyLt d t = true
    · rw [if_pos hd] at he
      rw [List.drop_succ_cons] at he
      exact ih hds e he
    · rw [if_neg hd] at he
      rw [List.drop_zero] at he
      rcases List.mem_cons.mp he with he | he
      · rw [he]
        exact Bool.not_eq_true _ ▸ hd
      · exact pyLt_neg_trans (Bool.not_eq_true _ ▸ hd) (hd2 e he)

theorem sorted_head_min {d : String} {ds : List String}
    (h : (d :: ds).Pairwise (fun a b => pyLt b a = false)) :
    ∀ e ∈ d :: ds, pyLt e d = false := by
  obtain ⟨hd, _⟩ := List.pairwise_cons.mp h
  intro e he
  rcases List.mem_cons.mp he with he | he
  · rw [he]
    exact pyLt_irrefl d
  · exact hd e he

theorem sorted_getLast_max : ∀ {l : List String}
    (h : l.Pairwise (fun a b => pyLt b a = false)) (hne : l ≠ []),
    ∀ e ∈ l, pyLt (l.getLast hne) e = false := by
  intro l
  induction l with
  | nil => intro _ hne; exact absurd rfl hne
  | cons d ds ih =>
    intro h hne e he
    obtain ⟨hd, hds⟩ := List.pairwise_cons.mp h
    cases ds with
    | nil =>
      rcases List.mem_cons.mp he with he | he
      · rw [List.getLast_singleton, he]
        exact pyLt_irrefl d
      · cases he
    | cons d2 ds2 =>
      rw [List.getLast_cons (by simp)]
      rcases List.mem_cons.mp he with he | he
      · rw [he]
        exact hd _ (List.getLast_mem _)
      · exact ih hds (by simp) e he

/-- All keys of the route table classify (the invariant registration
enforces through validate_version). -/
def keysValid (table : List (String × List Nat)) : Bool :=
  table.all (fun p => is_valid_date p.1 || is_valid_version p.1)

/-- All keys of the route table are normalization fixed points (the invariant
registration enforces by storing under normalize_version of the token). -/
def keysNormalized (table : List (String × List Nat)) : Bool :=
  table.all (fun p => normalize_version p.1 == p.1)

theorem keysValid_spec {table : List (String × List Nat)}
    (h : keysValid table = true) :
    ∀ p ∈ table, is_valid_date p.1 = true ∨ is_valid_version p.1 = true := by
  unfold keysValid at h
  rw [List.all_eq_true] at h
  intro p hp
  exact Bool.or_eq_true _ _ |>.mp (h p hp)

theorem keysNormalized_spec {table : List (String × List Nat)}
    (h : keysNormalized table = true) :
    ∀ p ∈ table, normalize_version p.1 = p.1 := by
  unfold keysNormalized at h
  rw [List.all_eq_true] at h
  intro p hp
  exact beq_iff_eq.mp (h p hp)

theorem partitionRoutes_eq : ∀ {table d sv : List (String × List Nat)},
    partitionRoutes table = .ok (d, sv) →
    d = table.filter (fun p => is_valid_date p.1) ∧
    sv = table.filter (fun p => !is_valid_date p.1 && is_valid_version p.1) := by
  intro table
  induction table with
  | nil =>
    intro d sv h
    have h2 : (([], []) : List (String × List Nat) × List (String × List Nat))
        = (d, sv) := by injection h
    have hd : [] = d := congrArg Prod.fst h2
    have hs : [] = sv := congrArg Prod.snd h2
    exact ⟨hd.symm, hs.symm⟩
  | cons p rest ih =>
    intro d sv h
    obtain ⟨k, v⟩ := p
    simp only [partitionRoutes] at h
    by_cases hdk : is_valid_date k = true
    · rw [if_pos hdk] at h
      rcases hp : partitionRoutes rest with e | pr
      · rw [hp] at h
        cases h
      · obtain ⟨d0, sv0⟩ := pr
        rw [hp] at h
        have h2 : ((k, v) :: d0, sv0) = (d, sv) := by injection h
        have hdq : (k, v) :: d0 = d := congrArg Prod.fst h2
        have hsq : sv0 = sv := congrArg Prod.snd h2
        obtain ⟨ih1, ih2⟩ := ih hp
        constructor
        · rw [← hdq, ih1]
          simp [List.filter_cons, hdk]
        · rw [← hsq, ih2]
          simp [List.filter_cons, hdk]
    · rw [if_neg hdk] at h
      have hdf : is_valid_date k = false := Bool.not_eq_true _ ▸ hdk
      by_cases hvk : is_valid_version k = true
      · rw [if_pos hvk] at h
        rcases hp : partitionRoutes rest with e | pr
        · rw [hp] at h
          cases h
        · obtain ⟨d0, sv0⟩ := pr
          rw [hp] at h
          have h2 : (d0, (k, v) :: sv0) = (d, sv) := by injection h
          have hdq : d0 = d := congrArg Prod.fst h2
          have hsq : (k, v) :: sv0 = sv := congrArg Prod.snd h2
          obtain ⟨ih1, ih2⟩ := ih hp
          constructor
          · rw [← hdq, ih1]
            simp [List.filter_cons, hdf]
          · rw [← hsq, ih2]
            simp [List.filter_cons, hdf, hvk]
      · rw [if_neg hvk] at h
        cases h

theorem partitionRoutes_isOk : ∀ {table : List (String × List Nat)},
    (∀ p ∈ table, is_valid_date p.1 = true ∨ is_valid_version p.1 = true) →
    ∃ d sv, partitionRoutes table = .ok (d, sv) := by
  intro table
  induction table with
  | nil => intro _; exact ⟨[], [], rfl⟩
  | cons p rest ih =>
    intro h
    obtain ⟨k, v⟩ := p
    obtain ⟨d0, sv0, hp⟩ := ih (fun q hq => h q (List.mem_cons.mpr (Or.inr hq)))
    rcases h (k, v) (List.mem_cons.mpr (Or.inl rfl)) with hk | hk
    · refine ⟨(k, v) :: d0, sv0, ?_⟩
      simp only [partitionRoutes]
      rw [if_pos hk, hp]
    · by_cases hdk : is_valid_date k = true
      · refine ⟨(k, v) :: d0, sv0, ?_⟩
        simp only [partitionRoutes]
        rw [if_pos hdk, hp]
      · refine ⟨d0, (k, v) :: sv0, ?_⟩
        simp only [partitionRoutes]
        rw [if_neg hdk, if_pos hk, hp]

theorem computeGroupAndSort_eq {table : List (String × List Nat)}
    {g : GroupedIndex} (h : computeGroupAndSort table = .ok g) :
    g.sorted_date_routes =
      sortItems (table.filter (fun p => is_valid_date p.1)) ∧
    g.sorted_version_routes =
      sortItems (table.filter (fun p => !is_valid_date p.1 && is_valid_version p.1)) := by
  unfold computeGroupAndSort at h
  rcases hp : partitionRoutes table with e | pr
  · rw [hp] at h
    cases h
  · obtain ⟨d, sv⟩ := pr
    rw [hp] at h
    have h2 : (⟨sortItems d, sortItems sv⟩ : GroupedIndex) = g := by injection h
    obtain ⟨h3, h4⟩ := partitionRoutes_eq hp
    rw [← h2, ← h3, ← h4]
    exact ⟨rfl, rfl⟩

theorem computeGroupAndSort_isOk {table : List (String × List Nat)}
    (h : keysValid table = true) : ∃ g, computeGroupAndSort table = .ok g := by
  obtain ⟨d, sv, hp⟩ := partitionRoutes_isOk (keysValid_spec h)
  refine ⟨⟨sortItems d, sortItems sv⟩, ?_⟩
  unfold computeGroupAndSort
  rw [hp]

/-- C9: normalize_version is idempotent on every input (in particular on all
valid semantic version strings); it prepends the v prefix exactly when the
input is a valid semantic version not already starting with v, returns every
other input unchanged, and never prefixes a valid calendar-date token. -/
theorem normalize_version_idempotent_spec :
    (∀ s : String, normalize_version (normalize_version s) = normalize_version s) ∧
    (∀ s : String, is_valid_version s = true → startsWithV s = false →
      normalize_version s = "v" ++ s) ∧
    (∀ s : String, (is_valid_version s = true → startsWithV s = true) →
      normalize_version s = s) ∧
    (∀ s : String, is_valid_date s = true → normalize_version s = s) := by
  refine ⟨normalize_version_idem, ?_, ?_, fun s h => normalize_version_of_date h⟩
  · intro s h1 h2
    apply normalize_version_of_cond_true
    rw [h1, h2]
    rfl
  · intro s h
    apply normalize_version_of_cond_false
    by_cases h1 : is_valid_version s = true
    · rw [h1, h h1]
      rfl
    · have h2 : is_valid_version s = false := by
        cases hb : is_valid_version s
        · rfl
        · exact absurd hb h1
      rw [h2]
      rfl

/-- Witness for C9 at the concrete tokens 1.2.3, v1.2.3 and 2024-04-29. -/
theorem normalize_version_idempotent_spec_witness :
    normalize_version (normalize_version "1.2.3") = normalize_version "1.2.3" ∧
    (is_valid_version "1.2.3" = true ∧ startsWithV "1.2.3" = false ∧
      normalize_version "1.2.3" = "v" ++ "1.2.3") ∧
    normalize_version "v1.2.3" = "v1.2.3" ∧
    (is_valid_date "2024-04-29" = true ∧
      normalize_version "2024-04-29" = "2024-04-29") :=
  ⟨normalize_version_idempotent_spec.1 "1.2.3",
    ⟨by decide, by decide,
      normalize_version_idempotent_spec.2.1 "1.2.3" (by decide) (by decide)⟩,
    normalize_version_idempotent_spec.2.2.1 "v1.2.3" (fun _ => by decide),
    ⟨by decide, normalize_version_idempotent_spec.2.2.2 "2024-04-29" (by decide)⟩⟩

/-- C6 counterexample: find_closest_date on the empty candidate list fails
with the IndexError from `available_dates[0]`, not with the
NoVersionsAvailable error the claim states. -/
theorem empty_candidates_date_cex :
    find_closest_date "2024-04-29" [] = .error .indexError ∧
    Err.indexError ≠ Err.noVersionsAvailable := ⟨by decide, by decide⟩

/-- C6 (amended): for a valid semantic-version target, find_closest_version
on the empty list raises the NoVersionsAvailable ValueError, but for a valid
date target, find_closest_date on the empty list fails with an IndexError
(indexing the empty sorted list), not NoVersionsAvailable. -/
theorem empty_candidates_error_modes :
    (∀ t : String, is_valid_version t = true →
      find_closest_version t [] = .error .noVersionsAvailable) ∧
    (∀ d : String, is_valid_date d = true →
      find_closest_date d [] = .error .indexError) := by
  constructor
  · intro t h
    rcases hp : parseVersion (normalize_version t) with _ | tv <;>
      simp [find_closest_version, h, hp, qualifying, pyMax]
  · intro d h
    simp [find_closest_date, h, pySorted, bisect_left, List.contains, fcdSearch]

/-- Witness for C6 at the concrete tokens v1.0.0 and 2024-04-29. -/
theorem empty_candidates_error_modes_witness :
    is_valid_version "v1.0.0" = true ∧
    find_closest_version "v1.0.0" [] = .error .noVersionsAvailable ∧
    is_valid_date "2024-04-29" = true ∧
    find_closest_date "2024-04-29" [] = .error .indexError :=
  ⟨by decide, empty_candidates_error_modes.1 "v1.0.0" (by decide),
    by decide, empty_candidates_error_modes.2 "2024-04-29" (by decide)⟩

/-- C2: registering v1.0.0, calling group_and_sort_routes (which fills the
lru_cache), registering v2.0.0 and calling group_and_sort_routes again
returns the cached grouping whose version partition still lists only v1.0.0,
while the table's key set is already [v1.0.0, v2.0.0] — the cache is keyed on
the instance, whose hash never changes, so it is never invalidated and the
stale grouping is served. -/
theorem group_and_sort_routes_stale_cache_demo :
    (do
      let st1 ← includeRouterVersioned ⟨[], [], none⟩ "v1.0.0" [1]
      let r1 ← group_and_sort_routes st1
      let st3 ← includeRouterVersioned r1.2 "v2.0.0" [2]
      let r2 ← group_and_sort_routes st3
      pure (st3.versionedRouters.map Prod.fst,
        r2.1.sorted_version_routes.map Prod.fst)
      : Except Err (List String × List String)) =
    .ok (["v1.0.0", "v2.0.0"], ["v1.0.0"]) := by decide

/-- C3 counterexample: with version keys v1.9.0 and v1.10.0 registered, the
sorted version partition puts v1.10.0 first (string order), so v1.9.0 does
not precede v1.10.0 as the claim's semantic-precedence ordering requires. -/
theorem group_and_sort_version_order_cex :
    computeGroupAndSort [("v1.9.0", [1]), ("v1.10.0", [2])] =
      .ok ⟨[], [("v1.10.0", [2]), ("v1.9.0", [1])]⟩ ∧
    (["v1.10.0", "v1.9.0"] : List String) ≠ ["v1.9.0", "v1.10.0"] :=
  ⟨by decide, by decide⟩

/-- C3 (amended): the partitions group_and_sort_routes returns are each a
permutation of the correspondingly classified table entries, sorted by
Python string comparison of the keys — which agrees with chronological order
for dates but is not semantic precedence for versions with multi-digit
components. -/
theorem group_and_sort_string_order :
    ∀ (table : List (String × List Nat)) (g : GroupedIndex),
      computeGroupAndSort table = .ok g →
      (g.sorted_version_routes.Pairwise (fun a b => pyLt b.1 a.1 = false) ∧
        g.sorted_version_routes.Perm
          (table.filter (fun p => !is_valid_date p.1 && is_valid_version p.1))) ∧
      (g.sorted_date_routes.Pairwise (fun a b => pyLt b.1 a.1 = false) ∧
        g.sorted_date_routes.Perm
          (table.filter (fun p => is_valid_date p.1))) := by
  intro table g h
  obtain ⟨h1, h2⟩ := computeGroupAndSort_eq h
  refine ⟨⟨?_, ?_⟩, ?_, ?_⟩
  · rw [h2]
    exact sortItems_pairwise _
  · rw [h2]
    exact sortItems_perm _
  · rw [h1]
    exact sortItems_pairwise _
  · rw [h1]
    exact sortItems_perm _

/-- Witness for C3 (amended) on a mixed two-key table. -/
theorem group_and_sort_string_order_witness :
    computeGroupAndSort [("v1.0.0", [1]), ("2024-04-29", [2])] =
      .ok ⟨[("2024-04-29", [2])], [("v1.0.0", [1])]⟩ ∧
    (((GroupedIndex.mk [("2024-04-29", [2])] [("v1.0.0", [1])]).sorted_version_routes.Pairwise
        (fun a b => pyLt b.1 a.1 = false) ∧
      (GroupedIndex.mk [("2024-04-29", [2])] [("v1.0.0", [1])]).sorted_version_routes.Perm
        ([("v1.0.0", [1]), ("2024-04-29", [2])].filter
          (fun p => !is_valid_date p.1 && is_valid_version p.1))) ∧
      ((GroupedIndex.mk [("2024-04-29", [2])] [("v1.0.0", [1])]).sorted_date_routes.Pairwise
        (fun a b => pyLt b.1 a.1 = false) ∧
      (GroupedIndex.mk [("2024-04-29", [2])] [("v1.0.0", [1])]).sorted_date_routes.Perm
        ([("v1.0.0", [1]), ("2024-04-29", [2])].filter
          (fun p => is_valid_date p.1)))) :=
  ⟨by decide,
    group_and_sort_string_order [("v1.0.0", [1]), ("2024-04-29", [2])]
      ⟨[("2024-04-29", [2])], [("v1.0.0", [1])]⟩ (by decide)⟩

/-- C1 counterexample: for target v2.0.0 both candidates qualify (parsed
precedence at most the target's) and v1.10.0 strictly exceeds v1.9.0 by
numeric three-component precedence, so the numeric maximum is v1.10.0; the
code returns v1.9.0, because Python's max compares the candidate strings. -/
theorem find_closest_version_not_numeric_max_cex :
    find_closest_version "v2.0.0" ["v1.9.0", "v1.10.0"] = .ok "v1.9.0" ∧
    parseVersion "v1.9.0" = some (1, 9, 0) ∧
    parseVersion "v1.10.0" = some (1, 10, 0) ∧
    parseVersion (normalize_version "v2.0.0") = some (2, 0, 0) ∧
    verLe (1, 9, 0) (2, 0, 0) = true ∧
    verLe (1, 10, 0) (2, 0, 0) = true ∧
    verLe (1, 10, 0) (1, 9, 0) = false ∧
    ("v1.9.0" : String) ≠ "v1.10.0" :=
  ⟨by decide, by decide, by decide, by decide, by decide, by decide,
    by decide, by decide⟩

/-- C1 (amended): when the target is a valid semantic version, every
normalized candidate parses, and at least one qualifies (parsed precedence at
most the target's), find_closest_version returns the qualifying normalized
candidate that is maximal in Python string order — the greatest-not-exceeding
candidate by string comparison, not by numeric precedence. -/
theorem find_closest_version_string_max :
    ∀ (target : String) (avail : List String) (tv : Nat × Nat × Nat),
      is_valid_version target = true →
      parseVersion (normalize_version target) = some tv →
      avail.all (fun v => (parseVersion (normalize_version v)).isSome) = true →
      avail.any (fun v => qualifiesB tv (normalize_version v)) = true →
      ∃ m, find_closest_version target avail = .ok m ∧
        m ∈ avail.map normalize_version ∧
        qualifiesB tv m = true ∧
        ∀ v ∈ avail.map normalize_version, qualifiesB tv v = true →
          pyLt m v = false := by
  intro target avail tv hv hp hall hany
  have hall2 : ∀ v ∈ avail.map normalize_version,
      (parseVersion v).isSome = true := by
    intro v hv2
    obtain ⟨w, hw, hwv⟩ := List.mem_map.mp hv2
    rw [← hwv]
    exact List.all_eq_true.mp hall w hw
  obtain ⟨qs, hqs⟩ := @qualifying_isSome tv (avail.map normalize_version) hall2
  obtain ⟨w, hw, hq⟩ := List.any_eq_true.mp hany
  have hwin : normalize_version w ∈ qs :=
    qualifying_complete hqs _ (List.mem_map_of_mem _ hw) hq
  have hqs_ne : qs ≠ [] := by
    intro h0
    rw [h0] at hwin
    cases hwin
  obtain ⟨m, hm⟩ := pyMax_of_ne_nil hqs_ne
  refine ⟨m, ?_, (qualifying_sound hqs m (pyMax_mem hm)).1,
    (qualifying_sound hqs m (pyMax_mem hm)).2, ?_⟩
  · unfold find_closest_version
    rw [if_pos hv]
    simp only [hp, hqs, hm]
  · intro v hv2 hq2
    exact pyMax_ge hm v (qualifying_complete hqs v hv2 hq2)

/-- Witness for C1 (amended) at the spec's worked example. -/
theorem find_closest_version_string_max_witness :
    is_valid_version "v1.2.3" = true ∧
    parseVersion (normalize_version "v1.2.3") = some (1, 2, 3) ∧
    (["v1.0.0", "v1.1.0", "v1.2.0", "v1.2.1", "v1.2.2", "v1.2.4"].all
      (fun v => (parseVersion (normalize_version v)).isSome)) = true ∧
    (["v1.0.0", "v1.1.0", "v1.2.0", "v1.2.1", "v1.2.2", "v1.2.4"].any
      (fun v => qualifiesB (1, 2, 3) (normalize_version v))) = true ∧
    (∃ m, find_closest_version "v1.2.3"
        ["v1.0.0", "v1.1.0", "v1.2.0", "v1.2.1", "v1.2.2", "v1.2.4"] = .ok m ∧
      m ∈ ["v1.0.0", "v1.1.0", "v1.2.0", "v1.2.1", "v1.2.2", "v1.2.4"].map
        normalize_version ∧
      qualifiesB (1, 2, 3) m = true ∧
      ∀ v ∈ ["v1.0.0", "v1.1.0", "v1.2.0", "v1.2.1", "v1.2.2", "v1.2.4"].map
        normalize_version, qualifiesB (1, 2, 3) v = true → pyLt m v = false) :=
  ⟨by decide, by decide, by decide, by decide,
    find_closest_version_string_max "v1.2.3"
      ["v1.0.0", "v1.1.0", "v1.2.0", "v1.2.1", "v1.2.2", "v1.2.4"] (1, 2, 3)
      (by decide) (by decide) (by decide) (by decide)⟩

/-- C4 counterexample: target v1.0.0 with candidates [v1.2.0, v1.1.0] (each
strictly above the target) returns v1.2.0, the first element in list order,
although the smallest available candidate by semantic precedence is
v1.1.0. -/
theorem find_closest_version_fallback_cex :
    find_closest_version "v1.0.0" ["v1.2.0", "v1.1.0"] = .ok "v1.2.0" ∧
    parseVersion "v1.1.0" = some (1, 1, 0) ∧
    parseVersion "v1.2.0" = some (1, 2, 0) ∧
    parseVersion (normalize_version "v1.0.0") = some (1, 0, 0) ∧
    verLe (1, 1, 0) (1, 0, 0) = false ∧
    verLe (1, 2, 0) (1, 0, 0) = false ∧
    verLe (1, 1, 0) (1, 2, 0) = true ∧
    ("v1.2.0" : String) ≠ "v1.1.0" :=
  ⟨by decide, by decide, by decide, by decide, by decide, by decide,
    by decide, by decide⟩

/-- C4 (amended): when the target is a valid semantic version, every
normalized candidate parses, and none qualifies (all strictly exceed the
target's precedence), find_closest_version returns the normalized first
element of the candidate list in its given order — which is the smallest
available candidate only when the list is already sorted ascending. -/
theorem find_closest_version_fallback_first :
    ∀ (target v : String) (vs : List String) (tv : Nat × Nat × Nat),
      is_valid_version target = true →
      parseVersion (normalize_version target) = some tv →
      ((v :: vs).all (fun w => (parseVersion (normalize_version w)).isSome)) = true →
      ((v :: vs).all (fun w => !qualifiesB tv (normalize_version w))) = true →
      find_closest_version target (v :: vs) = .ok (normalize_version v) := by
  intro target v vs tv hv hp hall hnone
  have hall2 : ∀ w ∈ (v :: vs).map normalize_version,
      (parseVersion w).isSome = true := by
    intro w hw2
    obtain ⟨u, hu, huw⟩ := List.mem_map.mp hw2
    rw [← huw]
    exact List.all_eq_true.mp hall u hu
  obtain ⟨qs, hqs⟩ := @qualifying_isSome tv ((v :: vs).map normalize_version) hall2
  have hqs_nil : qs = [] := by
    cases qs with
    | nil => rfl
    | cons q qrest =>
      exfalso
      have hq := qualifying_sound hqs q (List.mem_cons.mpr (Or.inl rfl))
      obtain ⟨u, hu, huq⟩ := List.mem_map.mp hq.1
      have hn := List.all_eq_true.mp hnone u hu
      rw [huq, hq.2] at hn
      cases hn
  rw [hqs_nil] at hqs
  rw [List.map_cons] at hqs
  unfold find_closest_version
  rw [if_pos hv]
  simp only [hp, List.map_cons, hqs, pyMax]

/-- Witness for C4 (amended) at the spec's fallback example. -/
theorem find_closest_version_fallback_first_witness :
    is_valid_version "v1.0.0" = true ∧
    parseVersion (normalize_version "v1.0.0") = some (1, 0, 0) ∧
    (["v1.1.0", "v1.2.0"].all
      (fun w => (parseVersion (normalize_version w)).isSome)) = true ∧
    (["v1.1.0", "v1.2.0"].all
      (fun w => !qualifiesB (1, 0, 0) (normalize_version w))) = true ∧
    find_closest_version "v1.0.0" ["v1.1.0", "v1.2.0"] =
      .ok (normalize_version "v1.1.0") :=
  ⟨by decide, by decide, by decide, by decide,
    find_closest_version_fallback_first "v1.0.0" "v1.1.0" ["v1.2.0"] (1, 0, 0)
      (by decide) (by decide) (by decide) (by decide)⟩

/-- C8 counterexample: an invalid token reaching the dispatcher of a
well-formed one-bucket router yields the propagating invalid-format error —
no UnroutableVersion recovery, no fallback route set. -/
theorem invalid_header_no_fallback_cex :
    getRoutesForVersion ⟨[("v1.0.0", [1])], [0], none⟩ "banana" =
      .error .invalidFormat := by decide

/-- C8 (amended): any nonempty header that classifies as neither a valid date
nor a valid version makes the dispatcher raise find_closest_version's
invalid-format ValueError, which propagates out of _get_routes_for_version;
there is no recovery to a smallest-available or unversioned default. -/
theorem invalid_header_error_propagates :
    ∀ (st : RouterState) (header : String),
      keysValid st.versionedRouters = true →
      st.groupCache = none →
      header ≠ "" →
      is_valid_date header = false →
      is_valid_version header = false →
      getRoutesForVersion st header = .error .invalidFormat := by
  intro st header hkv hcache hne hd hv
  obtain ⟨g, hg⟩ := computeGroupAndSort_isOk hkv
  have hfc : find_closest_version header (g.sorted_version_routes.map Prod.fst) =
      .error .invalidFormat := by
    unfold find_closest_version
    rw [hv]
    rfl
  unfold getRoutesForVersion
  rw [if_neg hne]
  have hpick : pickVersion st header = .error .invalidFormat := by
    unfold pickVersion group_and_sort_routes
    rw [hcache, hg]
    simp only [hd, Bool.false_eq_true, if_false, hfc]
  rw [hpick]

/-- Witness for C8 (amended) on a one-bucket router and the token banana. -/
theorem invalid_header_error_propagates_witness :
    keysValid [("v1.0.0", [1])] = true ∧
    ("banana" : String) ≠ "" ∧
    is_valid_date "banana" = false ∧
    is_valid_version "banana" = false ∧
    getRoutesForVersion ⟨[("v1.0.0", [1])], [0], none⟩ "banana" =
      .error .invalidFormat :=
  ⟨by decide, by decide, by decide, by decide,
    invalid_header_error_propagates ⟨[("v1.0.0", [1])], [0], none⟩ "banana"
      (by decide) rfl (by decide) (by decide) (by decide)⟩

theorem fcdSearch_eq_zero {t d : String} {ds : List String}
    (hi0 : bisect_left t (d :: ds) = 0) : fcdSearch t (d :: ds) = .ok d := by
  unfold fcdSearch
  rw [hi0]
  simp

theorem fcdSearch_eq_pos {t : String} {s : List String} {r : String}
    (hi : bisect_left t s ≠ 0)
    (hr : s[bisect_left t s - 1]? = some r) :
    fcdSearch t s = .ok r := by
  unfold fcdSearch
  rw [if_neg hi]
  by_cases hil : bisect_left t s = s.length
  · rw [if_pos hil, List.getLast?_eq_getElem?, ← hil, hr]
  · rw [if_neg hil, hr]

theorem find_closest_date_eq_mem {target : String} {dates : List String}
    (hvalid : is_valid_date target = true) (hmem : target ∈ dates) :
    find_closest_date target dates = .ok target := by
  unfold find_closest_date
  rw [if_pos hvalid, if_pos (List.elem_eq_true_of_mem hmem)]

theorem find_closest_date_eq_not_mem {target : String} {dates : List String}
    (hvalid : is_valid_date target = true) (hc : ¬ target ∈ dates) :
    find_closest_date target dates = fcdSearch target (pySorted dates) := by
  unfold find_closest_date
  rw [if_pos hvalid, if_neg (fun hb => hc (List.mem_of_elem_eq_true hb))]

/-- C5: find_closest_date returns the target itself when it is a member;
otherwise it returns the greatest candidate strictly below the target when
one exists (floor semantics, never the following date), and the minimum of
the candidates when the target precedes them all (the before-first clamp). -/
theorem find_closest_date_floor :
    ∀ (target : String) (dates : List String),
      is_valid_date target = true → dates ≠ [] →
      ∃ r, find_closest_date target dates = .ok r ∧ r ∈ dates ∧
        (target ∈ dates → r = target) ∧
        (target ∉ dates →
          ((∃ e ∈ dates, pyLt e target = true) →
            pyLt r target = true ∧
              ∀ e ∈ dates, pyLt e target = true → pyLt r e = false) ∧
          ((∀ e ∈ dates, pyLt e target = false) →
            ∀ e ∈ dates, pyLt e r = false)) := by
  intro target dates hvalid hne
  by_cases hmem : target ∈ dates
  · exact ⟨target, find_closest_date_eq_mem hvalid hmem, hmem,
      fun _ => rfl, fun hn => absurd hmem hn⟩
  · have hperm := pySorted_perm dates
    have hsorted := pySorted_pairwise dates
    have hsne : pySorted dates ≠ [] := by
      intro h0
      rw [h0] at hperm
      exact hne (List.eq_nil_of_length_eq_zero hperm.length_eq.symm)
    have heq := find_closest_date_eq_not_mem hvalid hmem
    by_cases hi0 : bisect_left target (pySorted dates) = 0
    · obtain ⟨d, ds, hsp⟩ : ∃ d ds, pySorted dates = d :: ds := by
        cases hx : pySorted dates with
        | nil => exact absurd hx hsne
        | cons d ds => exact ⟨d, ds, rfl⟩
      have hi0s : bisect_left target (d :: ds) = 0 := by
        rw [← hsp]
        exact hi0
      have hr : find_closest_date target dates = .ok d := by
        rw [heq, hsp]
        exact fcdSearch_eq_zero hi0s
      have hdmem : d ∈ dates := hperm.mem_iff.mp
        (by rw [hsp]; exact List.mem_cons.mpr (Or.inl rfl))
      have hall_ge : ∀ e ∈ pySorted dates, pyLt e target = false := by
        intro e he
        apply bisect_drop target hsorted
        rw [hi0, List.drop_zero]
        exact he
      refine ⟨d, hr, hdmem, fun hmem2 => absurd hmem2 hmem, fun _ => ⟨?_, ?_⟩⟩
      · intro hex
        exfalso
        obtain ⟨e, he, hlt⟩ := hex
        have hcon := hall_ge e (hperm.mem_iff.mpr he)
        rw [hlt] at hcon
        cases hcon
      · intro _ e he
        have hes : e ∈ d :: ds := by
          rw [← hsp]
          exact hperm.mem_iff.mpr he
        exact sorted_head_min (hsp ▸ hsorted) e hes
    · have hile := bisect_le_length target (pySorted dates)
      have hpos : 0 < (pySorted dates).length := List.length_pos.mpr hsne
      have hlt_idx : bisect_left target (pySorted dates) - 1 <
          (pySorted dates).length := by omega
      have hr0 : (pySorted dates)[bisect_left target (pySorted dates) - 1]? =
          some ((pySorted dates).get
            ⟨bisect_left target (pySorted dates) - 1, hlt_idx⟩) := by
        rw [List.getElem?_eq_getElem hlt_idx, List.get_eq_getElem]
      have hr : find_closest_date target dates =
          .ok ((pySorted dates).get
            ⟨bisect_left target (pySorted dates) - 1, hlt_idx⟩) := by
        rw [heq]
        exact fcdSearch_eq_pos hi0 hr0
      have hlen_take : ((pySorted dates).take
          (bisect_left target (pySorted dates))).length =
          bisect_left target (pySorted dates) := by
        rw [List.length_take]
        omega
      have hidx_take : bisect_left target (pySorted dates) - 1 <
          ((pySorted dates).take (bisect_left target (pySorted dates))).length := by
        rw [hlen_take]
        omega
      have hr_take : ((pySorted dates).take
            (bisect_left target (pySorted dates))).get
            ⟨bisect_left target (pySorted dates) - 1, hidx_take⟩ =
          (pySorted dates).get
            ⟨bisect_left target (pySorted dates) - 1, hlt_idx⟩ := by
        rw [List.get_eq_getElem, List.get_eq_getElem]
        exact List.getElem_take _
      have hr_mem_take : (pySorted dates).get
          ⟨bisect_left target (pySorted dates) - 1, hlt_idx⟩ ∈
          (pySorted dates).take (bisect_left target (pySorted dates)) := by
        rw [← hr_take]
        exact List.get_mem _ _ _
      have hrlt : pyLt ((pySorted dates).get
          ⟨bisect_left target (pySorted dates) - 1, hlt_idx⟩) target = true :=
        bisect_take target (pySorted dates) _ hr_mem_take
      have hr_mem : (pySorted dates).get
          ⟨bisect_left target (pySorted dates) - 1, hlt_idx⟩ ∈ pySorted dates :=
        List.get_mem _ _ _
      refine ⟨_, hr, hperm.mem_iff.mp hr_mem,
        fun hmem2 => absurd hmem2 hmem, fun _ => ⟨?_, ?_⟩⟩
      · intro _
        refine ⟨hrlt, ?_⟩
        intro e he hlt
        have hes : e ∈ pySorted dates := hperm.mem_iff.mpr he
        have hsplit : e ∈ (pySorted dates).take (bisect_left target (pySorted dates)) ∨
            e ∈ (pySorted dates).drop (bisect_left target (pySorted dates)) := by
          rw [← List.take_append_drop (bisect_left target (pySorted dates))
            (pySorted dates)] at hes
          exact List.mem_append.mp hes
        rcases hsplit with hta | hdr
        · obtain ⟨j, hj, hje⟩ := List.getElem_of_mem hta
          have hji : j < bisect_left target (pySorted dates) := by
            rw [hlen_take] at hj
            exact hj
          have hjlen : j < (pySorted dates).length := by omega
          have hjs : (pySorted dates)[j] = e := by
            rw [← hje]
            exact (List.getElem_take _).symm
          by_cases hjeq : j = bisect_left target (pySorted dates) - 1
          · rw [List.get_eq_getElem]
            have hee : (pySorted dates)[bisect_left target (pySorted dates) - 1] = e := by
              rw [← hjs]
              congr 1
              omega
            rw [hee]
            exact pyLt_irrefl e
          · have hjlt : j < bisect_left target (pySorted dates) - 1 := by omega
            have hpw := List.pairwise_iff_getElem.mp hsorted j
              (bisect_left target (pySorted dates) - 1)
              (by omega) hlt_idx hjlt
            rw [List.get_eq_getElem]
            rw [hjs] at hpw
            exact hpw
        · have hcon := bisect_drop target hsorted e hdr
          rw [hlt] at hcon
          cases hcon
      · intro hall
        exfalso
        have hcon := hall _ (hperm.mem_iff.mp hr_mem)
        rw [hrlt] at hcon
        cases hcon

/-- Witness for C5 at the spec's three date examples (between, before-first,
after-last) over the same candidate list. -/
theorem find_closest_date_floor_witness :
    is_valid_date "2024-04-17" = true ∧
    (["2024-04-10", "2024-04-15", "2024-04-20"] : List String) ≠ [] ∧
    (∃ r, find_closest_date "2024-04-17"
        ["2024-04-10", "2024-04-15", "2024-04-20"] = .ok r ∧
      r ∈ ["2024-04-10", "2024-04-15", "2024-04-20"] ∧
      ("2024-04-17" ∈ ["2024-04-10", "2024-04-15", "2024-04-20"] →
        r = "2024-04-17") ∧
      ("2024-04-17" ∉ (["2024-04-10", "2024-04-15", "2024-04-20"] : List String) →
        ((∃ e ∈ ["2024-04-10", "2024-04-15", "2024-04-20"],
            pyLt e "2024-04-17" = true) →
          pyLt r "2024-04-17" = true ∧
            ∀ e ∈ ["2024-04-10", "2024-04-15", "2024-04-20"],
              pyLt e "2024-04-17" = true → pyLt r e = false) ∧
        ((∀ e ∈ ["2024-04-10", "2024-04-15", "2024-04-20"],
            pyLt e "2024-04-17" = false) →
          ∀ e ∈ ["2024-04-10", "2024-04-15", "2024-04-20"],
            pyLt e r = false))) :=
  ⟨by decide, by decide,
    find_closest_date_floor "2024-04-17"
      ["2024-04-10", "2024-04-15", "2024-04-20"] (by decide) (by decide)⟩

theorem fcd_mem {target : String} {dates : List String}
    (hvalid : is_valid_date target = true) (hne : dates ≠ []) :
    ∃ r, find_closest_date target dates = .ok r ∧ r ∈ dates := by
  by_cases hmem : target ∈ dates
  · exact ⟨target, find_closest_date_eq_mem hvalid hmem, hmem⟩
  · have hperm := pySorted_perm dates
    have hsne : pySorted dates ≠ [] := by
      intro h0
      rw [h0] at hperm
      exact hne (List.eq_nil_of_length_eq_zero hperm.length_eq.symm)
    have heq := find_closest_date_eq_not_mem hvalid hmem
    by_cases hi0 : bisect_left target (pySorted dates) = 0
    · obtain ⟨d, ds, hsp⟩ : ∃ d ds, pySorted dates = d :: ds := by
        cases hx : pySorted dates with
        | nil => exact absurd hx hsne
        | cons d ds => exact ⟨d, ds, rfl⟩
      refine ⟨d, ?_, hperm.mem_iff.mp
        (by rw [hsp]; exact List.mem_cons.mpr (Or.inl rfl))⟩
      rw [heq, hsp]
      exact fcdSearch_eq_zero (by rw [← hsp]; exact hi0)
    · have hile := bisect_le_length target (pySorted dates)
      have hpos : 0 < (pySorted dates).length := List.length_pos.mpr hsne
      have hlt_idx : bisect_left target (pySorted dates) - 1 <
          (pySorted dates).length := by omega
      refine ⟨(pySorted dates).get
        ⟨bisect_left target (pySorted dates) - 1, hlt_idx⟩, ?_,
        hperm.mem_iff.mp (List.get_mem _ _ _)⟩
      rw [heq]
      exact fcdSearch_eq_pos hi0
        (by rw [List.getElem?_eq_getElem hlt_idx, List.get_eq_getElem])

theorem fcv_mem {target : String} {avail : List String}
    (hv : is_valid_version target = true) (hne : avail ≠ []) :
    ∃ r, find_closest_version target avail = .ok r ∧
      r ∈ avail.map normalize_version := by
  cases avail with
  | nil => exact absurd rfl hne
  | cons v vs =>
    unfold find_closest_version
    rw [if_pos hv]
    rcases hp : parseVersion (normalize_version target) with _ | tv
    · refine ⟨normalize_version v, ?_,
        List.mem_map_of_mem _ (List.mem_cons.mpr (Or.inl rfl))⟩
      simp only [hp, List.map_cons]
    · rcases hq : qualifying tv ((v :: vs).map normalize_version) with _ | qs
      · refine ⟨normalize_version v, ?_,
          List.mem_map_of_mem _ (List.mem_cons.mpr (Or.inl rfl))⟩
        simp only [List.map_cons] at hq
        simp only [hp, List.map_cons, hq]
      · rcases hqm : pyMax qs with _ | m
        · refine ⟨normalize_version v, ?_,
            List.mem_map_of_mem _ (List.mem_cons.mpr (Or.inl rfl))⟩
          simp only [List.map_cons] at hq
          simp only [hp, List.map_cons, hq, hqm]
        · refine ⟨m, ?_, (qualifying_sound hq m (pyMax_mem hqm)).1⟩
          simp only [List.map_cons] at hq
          simp only [hp, List.map_cons, hq, hqm]

theorem pickVersion_ok :
    ∀ (st : RouterState) (header : String),
      keysValid st.versionedRouters = true →
      keysNormalized st.versionedRouters = true →
      st.groupCache = none →
      (is_valid_date header = true →
        st.versionedRouters.filter (fun p => is_valid_date p.1) ≠ []) →
      (is_valid_date header = false → is_valid_version header = true) →
      (is_valid_date header = false →
        st.versionedRouters.filter
          (fun p => !is_valid_date p.1 && is_valid_version p.1) ≠ []) →
      ∃ routes st2, pickVersion st header = .ok (routes, st2) := by
  intro st header hkv hkn hcache hdate_ne hver hver_ne
  obtain ⟨g, hg⟩ := computeGroupAndSort_isOk hkv
  obtain ⟨hgd, hgv⟩ := computeGroupAndSort_eq hg
  have hgr : group_and_sort_routes st =
      .ok (g, { st with groupCache := some g }) := by
    unfold group_and_sort_routes
    rw [hcache, hg]
  by_cases hd : is_valid_date header = true
  · have hdk_ne : g.sorted_date_routes.map Prod.fst ≠ [] := by
      rw [hgd]
      intro h0
      have h1 := List.map_eq_nil_iff.mp h0
      have h2 := sortItems_perm
        (st.versionedRouters.filter (fun p => is_valid_date p.1))
      rw [h1] at h2
      exact hdate_ne hd (List.eq_nil_of_length_eq_zero h2.length_eq.symm)
    obtain ⟨r, hfd, hrmem⟩ := fcd_mem hd hdk_ne
    have hrk : r ∈ st.versionedRouters.map Prod.fst := by
      rw [hgd] at hrmem
      obtain ⟨p, hp, hpr⟩ := List.mem_map.mp hrmem
      have hp2 := (sortItems_perm _).mem_iff.mp hp
      rw [← hpr]
      exact List.mem_map_of_mem _ (List.mem_of_mem_filter hp2)
    obtain ⟨routes, hlr⟩ := lookupTable_isSome_of_mem hrk
    refine ⟨routes, { st with groupCache := some g }, ?_⟩
    unfold pickVersion
    rw [hgr]
    simp only [hfd]
    rw [if_pos hd]
    simp only [hlr]
  · have hd2 : is_valid_date header = false := by
      cases hb : is_valid_date header
      · rfl
      · exact absurd hb hd
    have hvv := hver hd2
    have hvk_ne : g.sorted_version_routes.map Prod.fst ≠ [] := by
      rw [hgv]
      intro h0
      have h1 := List.map_eq_nil_iff.mp h0
      have h2 := sortItems_perm (st.versionedRouters.filter
        (fun p => !is_valid_date p.1 && is_valid_version p.1))
      rw [h1] at h2
      exact hver_ne hd2 (List.eq_nil_of_length_eq_zero h2.length_eq.symm)
    obtain ⟨r, hfv, hrmem⟩ := fcv_mem hvv hvk_ne
    have hnorm : ∀ x ∈ g.sorted_version_routes.map Prod.fst,
        normalize_version x = x := by
      intro x hx
      rw [hgv] at hx
      obtain ⟨p, hp, hpx⟩ := List.mem_map.mp hx
      have hp2 := (sortItems_perm _).mem_iff.mp hp
      rw [← hpx]
      exact keysNormalized_spec hkn p (List.mem_of_mem_filter hp2)
    rw [map_normalize_id hnorm] at hrmem
    have hrk : r ∈ st.versionedRouters.map Prod.fst := by
      rw [hgv] at hrmem
      obtain ⟨p, hp, hpr⟩ := List.mem_map.mp hrmem
      have hp2 := (sortItems_perm _).mem_iff.mp hp
      rw [← hpr]
      exact List.mem_map_of_mem _ (List.mem_of_mem_filter hp2)
    obtain ⟨routes, hlr⟩ := lookupTable_isSome_of_mem hrk
    refine ⟨routes, { st with groupCache := some g }, ?_⟩
    unfold pickVersion
    rw [hgr]
    simp only [hfv]
    rw [if_neg hd]
    simp only [hlr]

/-- C7: on a router whose table keys all classify and are stored normalized
(the registration invariant) and whose grouping cache is fresh, the
dispatcher returns the unversioned route set for the empty header value, and
for a header that exactly equals a registered key it returns that key's
registered route set (the eagerly evaluated _pick_version default also
succeeds, so the dict .get fast path is observable). -/
theorem get_routes_exact_or_unversioned :
    ∀ (st : RouterState) (header : String) (routes : List Nat),
      keysValid st.versionedRouters = true →
      keysNormalized st.versionedRouters = true →
      st.groupCache = none →
      (getRoutesForVersion st "" = .ok (st.unversionedRouters, st)) ∧
      (header ≠ "" → lookupTable header st.versionedRouters = some routes →
        ∃ st2, getRoutesForVersion st header = .ok (routes, st2)) := by
  intro st header routes hkv hkn hcache
  constructor
  · unfold getRoutesForVersion
    rw [if_pos rfl]
  · intro hne hlook
    have hpair := lookupTable_pair_mem hlook
    have hclass := keysValid_spec hkv (header, routes) hpair
    have hdate_ne : is_valid_date header = true →
        st.versionedRouters.filter (fun p => is_valid_date p.1) ≠ [] := by
      intro hd h0
      have hmem : (header, routes) ∈
          st.versionedRouters.filter (fun p => is_valid_date p.1) :=
        List.mem_filter.mpr ⟨hpair, hd⟩
      rw [h0] at hmem
      cases hmem
    have hver : is_valid_date header = false → is_valid_version header = true := by
      intro hd
      rcases hclass with h | h
      · rw [hd] at h
        cases h
      · exact h
    have hver_ne : is_valid_date header = false →
        st.versionedRouters.filter
          (fun p => !is_valid_date p.1 && is_valid_version p.1) ≠ [] := by
      intro hd h0
      have hmem : (header, routes) ∈ st.versionedRouters.filter
          (fun p => !is_valid_date p.1 && is_valid_version p.1) :=
        List.mem_filter.mpr ⟨hpair, by simp [hd, hver hd]⟩
      rw [h0] at hmem
      cases hmem
    obtain ⟨pick, st2, hpick⟩ :=
      pickVersion_ok st header hkv hkn hcache hdate_ne hver hver_ne
    refine ⟨st2, ?_⟩
    unfold getRoutesForVersion
    rw [if_neg hne, hpick, hlook]

/-- Witness for C7 on a two-key mixed router, empty header and exact header
v1.0.0. -/
theorem get_routes_exact_or_unversioned_witness :
    keysValid [("v1.0.0", [1]), ("2024-04-29", [2])] = true ∧
    keysNormalized [("v1.0.0", [1]), ("2024-04-29", [2])] = true ∧
    (getRoutesForVersion ⟨[("v1.0.0", [1]), ("2024-04-29", [2])], [0], none⟩ "" =
      .ok ([0], ⟨[("v1.0.0", [1]), ("2024-04-29", [2])], [0], none⟩)) ∧
    (("v1.0.0" : String) ≠ "" →
      lookupTable "v1.0.0" [("v1.0.0", [1]), ("2024-04-29", [2])] = some [1] →
      ∃ st2, getRoutesForVersion
        ⟨[("v1.0.0", [1]), ("2024-04-29", [2])], [0], none⟩ "v1.0.0" =
        .ok ([1], st2)) :=
  ⟨by decide, by decide,
    (get_routes_exact_or_unversioned
      ⟨[("v1.0.0", [1]), ("2024-04-29", [2])], [0], none⟩ "v1.0.0" [1]
      (by decide) (by decide) rfl).1,
    (get_routes_exact_or_unversioned
      ⟨[("v1.0.0", [1]), ("2024-04-29", [2])], [0], none⟩ "v1.0.0" [1]
      (by decide) (by decide) rfl).2⟩

/-- C10: resolver results are members of the (normalized) candidate set —
find_closest_date returns an element of a nonempty list and
find_closest_version the normalized form of an element — and on a table with
the registration invariants (classifiable, normalized keys) the dispatcher's
final dictionary lookup versioned_routers[closest] in _pick_version succeeds
whenever the partition matching the header's classification is nonempty. -/
theorem resolver_results_in_candidates :
    (∀ (target : String) (dates : List String),
      is_valid_date target = true → dates ≠ [] →
      ∃ r, find_closest_date target dates = .ok r ∧ r ∈ dates) ∧
    (∀ (target : String) (avail : List String),
      is_valid_version target = true → avail ≠ [] →
      ∃ r, find_closest_version target avail = .ok r ∧
        r ∈ avail.map normalize_version) ∧
    (∀ (st : RouterState) (header : String),
      keysValid st.versionedRouters = true →
      keysNormalized st.versionedRouters = true →
      st.groupCache = none →
      (is_valid_date header = true →
        st.versionedRouters.filter (fun p => is_valid_date p.1) ≠ []) →
      (is_valid_date header = false → is_valid_version header = true) →
      (is_valid_date header = false →
        st.versionedRouters.filter
          (fun p => !is_valid_date p.1 && is_valid_version p.1) ≠ []) →
      ∃ routes st2, pickVersion st header = .ok (routes, st2)) :=
  ⟨fun _ _ h1 h2 => fcd_mem h1 h2, fun _ _ h1 h2 => fcv_mem h1 h2,
    pickVersion_ok⟩

/-- Witness for C10: date resolution over a singleton list, version
resolution over an unnormalized candidate list, and a dispatcher pick with
an unregistered version header on a two-key router. -/
theorem resolver_results_in_candidates_witness :
    is_valid_date "2024-05-01" = true ∧
    (∃ r, find_closest_date "2024-05-01" ["2024-04-29"] = .ok r ∧
      r ∈ (["2024-04-29"] : List String)) ∧
    is_valid_version "v1.5.0" = true ∧
    (∃ r, find_closest_version "v1.5.0" ["1.0.0"] = .ok r ∧
      r ∈ (["1.0.0"] : List String).map normalize_version) ∧
    (∃ routes st2, pickVersion
      ⟨[("v1.0.0", [1]), ("2024-04-29", [2])], [0], none⟩ "v1.5.0" =
      .ok (routes, st2)) :=
  ⟨by decide,
    resolver_results_in_candidates.1 "2024-05-01" ["2024-04-29"]
      (by decide) (by decide),
    by decide,
    resolver_results_in_candidates.2.1 "v1.5.0" ["1.0.0"]
      (by decide) (by decide),
    resolver_results_in_candidates.2.2
      ⟨[("v1.0.0", [1]), ("2024-04-29", [2])], [0], none⟩ "v1.5.0"
      (by decide) (by decide) rfl
      (fun hd => by rw [show is_valid_date "v1.5.0" = false from by decide] at hd; cases hd)
      (fun _ => by decide)
      (fun _ => by decide)⟩
